import Mathlib

/-!
Verification of the mtfind core against its specification.

The C++ sources are shallowly embedded: byte sequences are `List Nat`,
iterator ranges become explicit positions, and every loop of the original
code is rendered as a recursive function whose steps mirror the loop body.
The embedded components are:

* `RangeSplitter::operator()` (src/aux/range_splitter.hpp) as `splitStep`
  and the chunk sequence it produces as `splitChunks`;
* `NaiveSearcher::operator()` (src/searchers/naive_searcher.hpp), whose
  `std::search` call is modelled by `searchFirst` (the documented result of
  `std::search`: the first window that matches the pattern element-wise
  under the comparator, or the end iterator);
* both `BoyerMooreSearcher::operator()` variants
  (src/searchers/boyer_moore_searcher.hpp): the comparator-based one as
  `bmWildGo` with shift `wildShift`, and the `void` specialization with its
  `pattern_offsets_` table as `bmLitGo` with table `lastOcc` and shift
  `litShift`;
* `RangeTokenizer::operator()` (src/tokenizers/range_tokenizer.hpp) as
  `tokenizeAux`, which also counts searcher invocations;
* `ChunkHandlerBase::operator()` (src/aux/chunk.hpp) as `chunkFindings`;
* the Round-Robin strategy `round_robin` (src/strat/divide_and_conquer.hpp,
  second revision in the file) including its `min_element`-based merge loop
  as `mergeAll`;
* the Divide-and-Conquer strategy `divide_and_conquer` with its partition
  loop `generate_chunk_handlers_tasks` as `dncBoundsGo`/`dncEmit`;
* `MultithreadedTaskProcessor` (src/processors/multithreaded_task_processor.hpp)
  as the state machine `PoolState`, following the documented semantics of
  `boost::asio::io_service` (`post` enqueues a handler; handlers run only
  while some thread executes `run()`; queued handlers survive until then).
-/

namespace Mtfind

/-- Bytes are modelled as natural numbers; the program compares them only
for equality (and uses them as table indices in the literal searcher). -/
abbrev Byte := Nat

/-- The application's wildcard comparator from `Application::comparator()`:
`'?' == p || c == p`, with `'?' = 0x3F = 63`; `c` is the text byte and `p`
the pattern byte. -/
def wildcardEq (c p : Byte) : Bool := p == 63 || c == p

/-! Section: Range splitter (src/aux/range_splitter.hpp, lines 39-50)

`RangeSplitter::operator()` returns the sub-range from the current
position up to the first delimiter (`std::find`), then advances the
current position past that delimiter when one was found.  The chunk
returned by the call that starts at the end of the range is discarded by
every caller (the `eorange` flag is set before it is inspected), so the
sequence of chunks produced over a range is `splitChunks`. -/

/-- One call of `RangeSplitter::operator()` on the remaining bytes `r`:
the returned token and the new remaining bytes. `std::find` yields the
maximal delimiter-free prefix; the delimiter, when present, is skipped
(`current_pos_ = std::next(end_of_part_pos)`). Dropping
`(takeWhile).length + 1` elements is that skip: when no delimiter was
found the extra drop is vacuous, matching the `last_ != end_of_part_pos`
conditional. -/
def splitStep (d : Byte) (r : List Byte) : List Byte × List Byte :=
  (r.takeWhile (fun c => c != d), r.drop ((r.takeWhile (fun c => c != d)).length + 1))

/-- The sequence of chunks a `RangeSplitter` over `s` hands to its
consumer: one `splitStep` per loop iteration, stopping when the remaining
range is empty (the call made at the very end sets `eorange_` and its
empty token is discarded by all callers). -/
def splitChunks (s : List Byte) (d : Byte) : List (List Byte) :=
  if h : s = [] then []
  else (splitStep d s).1 :: splitChunks (splitStep d s).2 d
termination_by s.length
decreasing_by
  simp only [splitStep]
  have hlen : 0 < s.length := List.length_pos.mpr h
  have : s.length - ((s.takeWhile (fun c => c != d)).length + 1) < s.length := by omega
  simpa using this

/-- Specification-side splitting of a byte sequence at every delimiter
occurrence: `segmentsSpec d s` has one segment per maximal delimiter-free
run, including a final empty segment after a trailing delimiter
(`length = number of delimiters + 1`). -/
def segmentsSpec (d : Byte) : List Byte → List (List Byte)
  | [] => [[]]
  | c :: r =>
    if c = d then [] :: segmentsSpec d r
    else
      match segmentsSpec d r with
      | [] => [[c]]
      | s :: ss => (c :: s) :: ss

/-- The chunk sequence described by the specification of the range
splitter: maximal delimiter-free sub-ranges with the delimiter consumed,
empty chunks between adjacent delimiters preserved, no extra empty chunk
after a trailing delimiter, and a non-delimited final chunk emitted
as-is.  Formally: all delimiter-separated segments, with the final empty
segment dropped exactly when the input ends with the delimiter. -/
def specSplit (s : List Byte) (d : Byte) : List (List Byte) :=
  if s = [] then []
  else if s.getLast? = some d then (segmentsSpec d s).dropLast
  else segmentsSpec d s

theorem segmentsSpec_ne_nil (d : Byte) (s : List Byte) : segmentsSpec d s ≠ [] := by
  cases s with
  | nil => simp [segmentsSpec]
  | cons c r =>
    simp only [segmentsSpec]
    split
    · simp
    · cases h : segmentsSpec d r <;> simp

theorem splitChunks_nil (d : Byte) : splitChunks [] d = [] := by
  simp [splitChunks]

theorem splitStep_cons_delim (d : Byte) (r : List Byte) :
    splitStep d (d :: r) = ([], r) := by
  simp [splitStep, List.takeWhile_cons]

theorem splitStep_cons_ne (d c : Byte) (r : List Byte) (hc : c ≠ d) :
    splitStep d (c :: r) = (c :: (splitStep d r).1, (splitStep d r).2) := by
  have hne : (c != d) = true := by simpa using hc
  simp [splitStep, List.takeWhile_cons, hne]

theorem splitChunks_cons_delim (d : Byte) (r : List Byte) :
    splitChunks (d :: r) d = [] :: splitChunks r d := by
  rw [splitChunks]
  simp [splitStep_cons_delim]

theorem splitChunks_cons_ne (d c : Byte) (r : List Byte) (hc : c ≠ d) :
    splitChunks (c :: r) d =
      (c :: (splitChunks r d).headD []) :: (splitChunks r d).tail := by
  cases hr : r with
  | nil =>
    rw [splitChunks]
    simp [splitStep_cons_ne d c [] hc, splitStep, splitChunks_nil, hc]
  | cons c' r' =>
    have hR : splitChunks (c' :: r') d
        = (splitStep d (c' :: r')).1 :: splitChunks (splitStep d (c' :: r')).2 d := by
      rw [splitChunks]; simp
    rw [splitChunks]
    simp only [reduceCtorEq, dite_false, splitStep_cons_ne d c (c' :: r') hc, hR]
    simp

theorem splitChunks_eq_nil_iff (d : Byte) (s : List Byte) :
    splitChunks s d = [] ↔ s = [] := by
  constructor
  · intro h
    by_contra hs
    rw [splitChunks] at h
    simp [hs] at h
  · intro h; subst h; exact splitChunks_nil d

theorem dropLast_cons_of_ne_nil {α : Type} (a : α) (l : List α) (h : l ≠ []) :
    (a :: l).dropLast = a :: l.dropLast := by
  cases l with
  | nil => exact absurd rfl h
  | cons b bs => rfl

theorem segmentsSpec_cons_delim (d : Byte) (r : List Byte) :
    segmentsSpec d (d :: r) = [] :: segmentsSpec d r := by
  simp [segmentsSpec]

theorem segmentsSpec_cons_ne (d c : Byte) (r : List Byte) (hc : c ≠ d) :
    segmentsSpec d (c :: r)
      = (c :: (segmentsSpec d r).headD []) :: (segmentsSpec d r).tail := by
  simp only [segmentsSpec, hc, if_false]
  cases hseg : segmentsSpec d r with
  | nil => exact absurd hseg (segmentsSpec_ne_nil d r)
  | cons a as => simp

theorem segmentsSpec_two_le (d : Byte) (r : List Byte) (h : r.getLast? = some d) :
    2 ≤ (segmentsSpec d r).length := by
  induction r with
  | nil => simp at h
  | cons c r ih =>
    cases r with
    | nil =>
      simp only [List.getLast?_singleton, Option.some.injEq] at h
      subst h
      simp [segmentsSpec]
    | cons c' r' =>
      rw [List.getLast?_cons_cons] at h
      have h2 := ih h
      have hne := segmentsSpec_ne_nil d (c' :: r')
      by_cases hc : c = d
      · subst hc
        rw [segmentsSpec_cons_delim]
        have : 1 ≤ (segmentsSpec c (c' :: r')).length := by
          cases hseg : segmentsSpec c (c' :: r') with
          | nil => exact absurd hseg hne
          | cons a as => simp
        simpa using this
      · rw [segmentsSpec_cons_ne d c _ hc]
        cases hseg : segmentsSpec d (c' :: r') with
        | nil => exact absurd hseg hne
        | cons a as =>
          rw [hseg] at h2
          simp only [List.length_cons, List.tail_cons]
          simp only [List.length_cons] at h2
          omega

theorem specSplit_ne_nil (d : Byte) (r : List Byte) (h : r ≠ []) :
    specSplit r d ≠ [] := by
  unfold specSplit
  simp only [h, if_false]
  split
  · rename_i hend
    have h2 := segmentsSpec_two_le d r hend
    intro hcon
    have := congrArg List.length hcon
    simp [List.length_dropLast] at this
    omega
  · exact segmentsSpec_ne_nil d r

/-- C7: each call to `RangeSplitter::operator()` returns the next maximal
delimiter-free sub-range with the delimiter consumed and excluded; empty
sub-ranges between adjacent delimiters are emitted; a trailing delimiter
produces no extra final empty chunk; a non-delimited final chunk is
emitted as-is.  Formally, the chunk sequence produced by the splitter
(`splitChunks`, built from the embedded step `splitStep`) equals the
specification-side `specSplit`, which splits at every delimiter and drops
the final empty segment exactly when the input ends with the delimiter. -/
theorem range_splitter_contract (s : List Byte) (d : Byte) :
    splitChunks s d = specSplit s d := by
  induction s with
  | nil => simp [splitChunks_nil, specSplit]
  | cons c r ih =>
    cases r with
    | nil =>
      by_cases hc : c = d
      · subst hc
        rw [splitChunks_cons_delim, splitChunks_nil]
        simp [specSplit, segmentsSpec]
      · rw [splitChunks_cons_ne d c [] hc, splitChunks_nil]
        simp [specSplit, segmentsSpec, hc]
    | cons c' r' =>
      have hrne : (c' :: r' : List Byte) ≠ [] := by simp
      have hlast : (c :: c' :: r').getLast? = (c' :: r').getLast? :=
        List.getLast?_cons_cons
      have hsegne := segmentsSpec_ne_nil d (c' :: r')
      by_cases hend : (c' :: r').getLast? = some d
      · -- the tail ends with the delimiter
        have h2 := segmentsSpec_two_le d (c' :: r') hend
        obtain ⟨a, as, hseg⟩ : ∃ a as, segmentsSpec d (c' :: r') = a :: as := by
          cases hseg : segmentsSpec d (c' :: r') with
          | nil => exact absurd hseg hsegne
          | cons a as => exact ⟨a, as, rfl⟩
        have hasne : as ≠ [] := by
          rw [hseg] at h2
          intro hcon
          subst hcon
          simp at h2
        have hssr : specSplit (c' :: r') d = a :: as.dropLast := by
          unfold specSplit
          simp only [hrne, if_false, hend, if_true, hseg]
          exact dropLast_cons_of_ne_nil a as hasne
        by_cases hc : c = d
        · subst hc
          rw [splitChunks_cons_delim, ih, hssr]
          unfold specSplit
          simp only [reduceCtorEq, if_false, hlast, hend, if_true]
          rw [segmentsSpec_cons_delim, hseg]
          rw [dropLast_cons_of_ne_nil _ _ (by simp : (a :: as : List (List Byte)) ≠ [])]
          rw [dropLast_cons_of_ne_nil a as hasne]
        · rw [splitChunks_cons_ne d c _ hc, ih, hssr]
          unfold specSplit
          simp only [reduceCtorEq, if_false, hlast, hend, if_true]
          rw [segmentsSpec_cons_ne d c _ hc, hseg]
          simp only [List.headD_cons, List.tail_cons]
          rw [dropLast_cons_of_ne_nil _ _ hasne]
      · -- the tail does not end with the delimiter
        have hssr : specSplit (c' :: r') d = segmentsSpec d (c' :: r') := by
          unfold specSplit
          simp only [hrne, if_false, hend, if_false]
        by_cases hc : c = d
        · subst hc
          rw [splitChunks_cons_delim, ih, hssr]
          unfold specSplit
          simp only [reduceCtorEq, if_false, hlast, hend, if_false]
          rw [segmentsSpec_cons_delim]
        · rw [splitChunks_cons_ne d c _ hc, ih, hssr]
          unfold specSplit
          simp only [reduceCtorEq, if_false, hlast, hend, if_false]
          rw [segmentsSpec_cons_ne d c _ hc]

/-! Section: Searchers (src/searchers/naive_searcher.hpp, src/searchers/boyer_moore_searcher.hpp)

A searcher receives a range and returns a sub-range; here the range is a
byte list `txt` and the sub-range a pair of positions `(b, e)` into it. -/

/-- Plain byte equality, the comparator of the comparator-free searcher
specializations. -/
def byteEq (a b : Byte) : Bool := a == b

/-- Predicate `matchesAt eq txt pat i`: the window of `txt` starting at `i` matches
`pat` element-wise under `eq` (text byte first, pattern byte second) and
fits inside `txt`. -/
def matchesAt (eq : Byte → Byte → Bool) (txt pat : List Byte) (i : Nat) : Bool :=
  decide (pat.length + i ≤ txt.length)
    && ((txt.drop i).zip pat).all (fun x => eq x.1 x.2)

/-- The documented result of `std::search(first, last, pat_first, pat_last,
eq)`: the first position whose window matches the pattern under `eq`
(position `0` for an empty pattern), or none. -/
def searchFirst (eq : Byte → Byte → Bool) (txt pat : List Byte) : Option Nat :=
  (List.range (txt.length + 1)).find? (fun i => matchesAt eq txt pat i)

/-- Model of `NaiveSearcher::operator()` (both specializations): `std::search`, then
`boost::make_iterator_range(first, last != first ? next(first, size) :
last)`. `searchFirst` already returns `none` exactly when `std::search`
returns `last`, and the found position of a nonempty pattern is strictly
before `last`, so both conditional arms collapse to the forms below. -/
def naiveSearch (eq : Byte → Byte → Bool) (pat txt : List Byte) : Nat × Nat :=
  match searchFirst eq txt pat with
  | some p => (p, p + pat.length)
  | none => (txt.length, txt.length)

theorem searchFirst_some_bound (eq : Byte → Byte → Bool) (txt pat : List Byte)
    (p : Nat) (h : searchFirst eq txt pat = some p) :
    pat.length + p ≤ txt.length := by
  have hsat := List.find?_some h
  unfold matchesAt at hsat
  have := (Bool.and_eq_true _ _).mp hsat
  exact of_decide_eq_true this.1

/-- The right-to-left comparison loop shared by both Boyer-Moore
`operator()` bodies: starting with the pattern's reverse iterator at
reverse index `j` and `fuel` comparisons left, advance while the text byte
and pattern byte at reverse index `j` agree under `eq`.  Returns the
reverse index of the first disagreement (the pattern length when the whole
window matched). -/
def countMatchedGo (eq : Byte → Byte → Bool) (pat txt : List Byte) (cur : Nat) :
    Nat → Nat → Nat
  | j, 0 => j
  | j, fuel + 1 =>
    if eq (txt.getD (cur + pat.length - 1 - j) 0) (pat.getD (pat.length - 1 - j) 0)
    then countMatchedGo eq pat txt cur (j + 1) fuel
    else j

/-- Number of reverse positions matched by the right-to-left scan of the
window of `txt` at `cur` against `pat`; the loop runs while the pattern's
reverse iterator has not reached `rend`, i.e. at most `pat.length` steps. -/
def countMatched (eq : Byte → Byte → Bool) (pat txt : List Byte) (cur : Nat) : Nat :=
  countMatchedGo eq pat txt cur 0 pat.length

/-- The comparator-based Boyer-Moore shift
(src/searchers/boyer_moore_searcher.hpp lines 61-67): after a mismatch at
reverse index `j` with offending text byte `c`, scan `pat_rit2` from the
next reverse position while `!comp(c, *pat_rit2)`; the shift is
`distance(pat_rit, pat_rit2)`. -/
def wildShift (eq : Byte → Byte → Bool) (pat : List Byte) (c : Byte) (j : Nat) : Nat :=
  match (List.range' (j + 1) (pat.length - (j + 1))).find?
      (fun j2 => eq c (pat.getD (pat.length - 1 - j2) 0)) with
  | some j2 => j2 - j
  | none => pat.length - j

/-- Table `pattern_offsets_` of the literal `BoyerMooreSearcher<Pattern, void>`:
filled with `-1`, then `pattern_offsets_[pattern_[i]] = i` for each `i` in
order, so the entry for `c` ends as the last pattern index holding `c`. -/
def lastOcc (pat : List Byte) (c : Byte) : Int :=
  (List.range pat.length).foldl (fun acc i => if pat.getD i 0 = c then (i : Int) else acc) (-1)

/-- The literal Boyer-Moore shift (src/searchers/boyer_moore_searcher.hpp
lines 140-144 and 316-320): with `offset` the 0-based pattern index `k` of
the first mismatch (counted from the left) and `pat_offset =
pattern_offsets_[c]`, the window advances by
`offset - (offset > pat_offset ? pat_offset : -1)`. -/
def litShift (pat : List Byte) (k : Nat) (c : Byte) : Nat :=
  ((k : Int) - (if (k : Int) > lastOcc pat c then lastOcc pat c else -1)).toNat

/-- The search loop of the comparator-based `BoyerMooreSearcher`: while
the pattern fits in the remaining range, scan right-to-left; on a full
match return the aligned sub-range, otherwise advance by `wildShift`.
`fuel` only bounds the iteration count; every iteration advances `cur` by
at least one (`wildShift_ge_one`), so `txt.length + 1` iterations always
suffice and the fuel-exhaustion arm is never reached from `bmWildSearch`. -/
def bmWildGo (eq : Byte → Byte → Bool) (pat txt : List Byte) : Nat → Nat → Nat × Nat
  | _, 0 => (txt.length, txt.length)
  | cur, fuel + 1 =>
    if pat.length = 0 then (cur, cur)
    else if pat.length ≤ txt.length - cur then
      let j := countMatched eq pat txt cur
      if j = pat.length then (cur, cur + pat.length)
      else
        bmWildGo eq pat txt
          (cur + wildShift eq pat (txt.getD (cur + pat.length - 1 - j) 0) j) fuel
    else (txt.length, txt.length)

/-- Entry `BoyerMooreSearcher<Pattern, Comparator>::operator()` over a whole
range. -/
def bmWildSearch (eq : Byte → Byte → Bool) (pat txt : List Byte) : Nat × Nat :=
  bmWildGo eq pat txt 0 (txt.length + 1)

/-- The search loop of the literal `BoyerMooreSearcher<Pattern, void>`:
identical structure, but the comparison is plain equality and the shift
comes from the `pattern_offsets_` table. -/
def bmLitGo (pat txt : List Byte) : Nat → Nat → Nat × Nat
  | _, 0 => (txt.length, txt.length)
  | cur, fuel + 1 =>
    if pat.length = 0 then (cur, cur)
    else if pat.length ≤ txt.length - cur then
      let j := countMatched byteEq pat txt cur
      if j = pat.length then (cur, cur + pat.length)
      else
        bmLitGo pat txt
          (cur + litShift pat (pat.length - 1 - j) (txt.getD (cur + (pat.length - 1 - j)) 0))
          fuel
    else (txt.length, txt.length)

/-- Entry `BoyerMooreSearcher<Pattern, void>::operator()` over a whole range. -/
def bmLitSearch (pat txt : List Byte) : Nat × Nat :=
  bmLitGo pat txt 0 (txt.length + 1)

theorem wildShift_ge_one (eq : Byte → Byte → Bool) (pat : List Byte) (c : Byte)
    (j : Nat) (hj : j < pat.length) : 1 ≤ wildShift eq pat c j := by
  unfold wildShift
  cases hf : (List.range' (j + 1) (pat.length - (j + 1))).find?
      (fun j2 => eq c (pat.getD (pat.length - 1 - j2) 0)) with
  | none => simp only [hf]; omega
  | some j2 =>
    simp only [hf]
    have hmem := List.mem_of_find?_eq_some hf
    have := List.mem_range'_1.mp hmem
    omega

theorem litShift_ge_one (pat : List Byte) (k : Nat) (c : Byte) :
    1 ≤ litShift pat k c := by
  unfold litShift
  by_cases h : (k : Int) > lastOcc pat c
  · simp only [h, if_true]
    omega
  · simp only [h, if_false]
    omega

/-! Section: Tokenizer (src/tokenizers/range_tokenizer.hpp, lines 35-46)

`RangeTokenizer::operator()(first, last, out)` loops while `first != last`,
calls the searcher on `[first, last)`, breaks when the returned token is
empty, and otherwise emits the token and continues from `token.end()`.
The embedding instantiates the searcher with `NaiveSearcher` (the
reference oracle); it returns the emitted tokens as absolute position
pairs together with the number of searcher invocations made. -/

/-- A step of `naiveSearch` lands strictly forward and inside the range:
if the returned token `(b, e)` is nonempty then `b < e ≤` length of the
searched range. -/
theorem naiveSearch_ne_bounds (eq : Byte → Byte → Bool) (pat sub : List Byte)
    (b e : Nat) (hr : naiveSearch eq pat sub = (b, e)) (hbe : b ≠ e) :
    b < e ∧ e ≤ sub.length := by
  unfold naiveSearch at hr
  cases hs : searchFirst eq sub pat with
  | none => rw [hs] at hr; simp only [Prod.mk.injEq] at hr; omega
  | some p =>
    rw [hs] at hr
    simp only [Prod.mk.injEq] at hr
    have hb := searchFirst_some_bound eq sub pat p hs
    omega

def tokenizeAux (eq : Byte → Byte → Bool) (pat txt : List Byte) (cur : Nat) :
    List (Nat × Nat) × Nat :=
  if cur = txt.length then ([], 0)
  else if hbe : (naiveSearch eq pat (txt.drop cur)).1 = (naiveSearch eq pat (txt.drop cur)).2
  then ([], 1)
  else
    let rest := tokenizeAux eq pat txt (cur + (naiveSearch eq pat (txt.drop cur)).2)
    ((cur + (naiveSearch eq pat (txt.drop cur)).1,
      cur + (naiveSearch eq pat (txt.drop cur)).2) :: rest.1, rest.2 + 1)
termination_by txt.length - cur
decreasing_by
  have hb := naiveSearch_ne_bounds eq pat (txt.drop cur)
    (naiveSearch eq pat (txt.drop cur)).1 (naiveSearch eq pat (txt.drop cur)).2 rfl hbe
  rw [List.length_drop] at hb
  omega

/-- The token list produced by tokenizing a whole line. -/
def tokenize (eq : Byte → Byte → Bool) (pat txt : List Byte) : List (Nat × Nat) :=
  (tokenizeAux eq pat txt 0).1

theorem tokenizeAux_bounds (eq : Byte → Byte → Bool) (pat txt : List Byte) (cur : Nat) :
    ∀ t ∈ (tokenizeAux eq pat txt cur).1, cur ≤ t.1 ∧ t.1 < t.2 ∧ t.2 ≤ txt.length := by
  induction cur using tokenizeAux.induct eq pat txt with
  | case1 => intro t ht; rw [tokenizeAux] at ht; simp at ht
  | case2 x hne hbe =>
    intro t ht
    rw [tokenizeAux, if_neg hne, dif_pos hbe] at ht
    simp at ht
  | case3 x hne hbe ih =>
    intro t ht
    rw [tokenizeAux, if_neg hne, dif_neg hbe] at ht
    simp only [List.mem_cons] at ht
    have hb := naiveSearch_ne_bounds eq pat (txt.drop x)
      (naiveSearch eq pat (txt.drop x)).1 (naiveSearch eq pat (txt.drop x)).2 rfl hbe
    rw [List.length_drop] at hb
    rcases ht with ht | ht
    · subst ht
      exact ⟨by simp, by simp; omega, by simp; omega⟩
    · have := ih t ht
      exact ⟨by omega, this.2.1, this.2.2⟩

theorem tokenizeAux_pairwise (eq : Byte → Byte → Bool) (pat txt : List Byte) (cur : Nat) :
    (tokenizeAux eq pat txt cur).1.Pairwise (fun a b => a.2 ≤ b.1) := by
  induction cur using tokenizeAux.induct eq pat txt with
  | case1 => rw [tokenizeAux]; simp
  | case2 x hne hbe =>
    rw [tokenizeAux, if_neg hne, dif_pos hbe]
    simp
  | case3 x hne hbe ih =>
    rw [tokenizeAux, if_neg hne, dif_neg hbe]
    simp only [List.pairwise_cons]
    refine ⟨?_, ih⟩
    intro t ht
    have := tokenizeAux_bounds eq pat txt (x + (naiveSearch eq pat (txt.drop x)).2) t ht
    simpa using this.1

theorem getLast?_cons_of_ne_nil {α : Type} (a : α) (l : List α) (h : l ≠ []) :
    (a :: l).getLast? = l.getLast? := by
  cases l with
  | nil => exact absurd rfl h
  | cons b bs => exact List.getLast?_cons_cons

theorem tokenizeAux_count (eq : Byte → Byte → Bool) (pat txt : List Byte) (cur : Nat) :
    (tokenizeAux eq pat txt cur).2 =
      if (tokenizeAux eq pat txt cur).1 = [] then (if cur = txt.length then 0 else 1)
      else (tokenizeAux eq pat txt cur).1.length
        + (if (((tokenizeAux eq pat txt cur).1.getLast?).getD (0, 0)).2 = txt.length
           then 0 else 1) := by
  induction cur using tokenizeAux.induct eq pat txt with
  | case1 => rw [tokenizeAux]; simp
  | case2 x hne hbe => rw [tokenizeAux, if_neg hne, dif_pos hbe]; simp [hne]
  | case3 x hne hbe ih =>
    rw [tokenizeAux, if_neg hne, dif_neg hbe]
    simp only [List.cons_ne_nil, if_false, List.length_cons]
    by_cases hrest : (tokenizeAux eq pat txt (x + (naiveSearch eq pat (txt.drop x)).2)).1 = []
    · simp only [if_pos rfl] at ih
      simp only [hrest, List.getLast?_singleton, List.length_nil, Option.getD_some]
      split_ifs at ih ⊢ <;> omega
    · rw [if_neg hrest] at ih
      rw [getLast?_cons_of_ne_nil _ _ hrest]
      split_ifs at ih ⊢ <;> omega

/-- C4 (amended): on a line with `k` matches the tokenizer invokes the
searcher exactly `k + 1` times — the final invocation returning an empty
token — except that an empty line is never searched (`0` invocations for
`k = 0`) and that a final match ending exactly at the line end stops the
scan by exhausting the cursor (`k` invocations, no final empty call). -/
theorem tokenizer_invocation_count (eq : Byte → Byte → Bool) (pat txt : List Byte) :
    (tokenizeAux eq pat txt 0).2 =
      if tokenize eq pat txt = [] then (if txt = [] then 0 else 1)
      else (tokenize eq pat txt).length
        + (if (((tokenize eq pat txt).getLast?).getD (0, 0)).2 = txt.length
           then 0 else 1) := by
  rw [tokenizeAux_count eq pat txt 0]
  unfold tokenize
  have hiff : (0 = txt.length) ↔ (txt = []) := by
    rw [eq_comm]
    exact List.length_eq_zero
  split_ifs with h1 h2 h3 h4 h5 <;> first
    | rfl
    | (exact absurd (hiff.mp h2) h3)
    | (exact absurd (hiff.mpr h4) h2)

/-- C4 (counterexample): on the line `"ab"` with pattern `"ab"` there is
exactly `k = 1` match, yet the searcher is invoked only once — the match
ends exactly at the line end, so no final empty-returning call happens,
contradicting the claimed `k + 1` invocations. -/
theorem tokenizer_invocation_counterexample :
    (tokenize byteEq [97, 98] [97, 98]).length = 1 ∧
    ¬ ((tokenizeAux byteEq [97, 98] [97, 98] 0).2
        = (tokenize byteEq [97, 98] [97, 98]).length + 1) := by
  have hs1 : naiveSearch byteEq [97, 98] (List.drop 0 [97, 98]) = (0, 2) := by decide
  have h2 : tokenizeAux byteEq [97, 98] [97, 98] 2 = ([], 0) := by
    rw [tokenizeAux]; norm_num
  have h0 : tokenizeAux byteEq [97, 98] [97, 98] 0 = ([(0, 2)], 1) := by
    rw [tokenizeAux]
    rw [if_neg (by decide), dif_neg (by rw [hs1]; decide)]
    rw [hs1]
    norm_num [h2]
  simp [tokenize, h0]

/-- C2: the three searcher implementations are not equivalent.  On the
wildcard-free pattern `"aaba"` (`[97,97,98,97]`) and text `"aaaaba"`
(`[97,97,97,97,98,97]`), the naive searcher and the comparator-based
Boyer-Moore searcher (both run with the application's wildcard
comparator) find the occurrence at positions `[2, 6)`, but the literal
`BoyerMooreSearcher<Pattern, void>` returns the empty not-found range at
the text end: its bad-character shift `k + 1` at a mismatch with
`k <= pattern_offsets_[c]` jumps past the match. -/
theorem searchers_disagree_on_aaba :
    naiveSearch wildcardEq [97, 97, 98, 97] [97, 97, 97, 97, 98, 97] = (2, 6) ∧
    bmWildSearch wildcardEq [97, 97, 98, 97] [97, 97, 97, 97, 98, 97] = (2, 6) ∧
    bmLitSearch [97, 97, 98, 97] [97, 97, 97, 97, 98, 97] = (6, 6) := by
  refine ⟨by decide, by decide, by decide⟩

/-- C3: evaluation of the literal Boyer-Moore shift at the failing input.
Aligning pattern `"aaba"` at position `0` of text `"aaaaba"`, the
right-to-left scan matches one byte and first mismatches at 0-based
pattern index `k = 2` against text byte `c = 'a'`, whose last occurrence
in the pattern is index `3 >= k`; the claim then demands a shift of `1`,
but the code computes `offset - (-1) = k + 1 = 3`, and consequently the
search misses the occurrence at position `2` entirely. -/
theorem literal_shift_is_k_plus_one :
    countMatched byteEq [97, 97, 98, 97] [97, 97, 97, 97, 98, 97] 0 = 1 ∧
    lastOcc [97, 97, 98, 97] 97 = 3 ∧
    litShift [97, 97, 98, 97] 2 97 = 3 ∧
    searchFirst byteEq [97, 97, 97, 97, 98, 97] [97, 97, 98, 97] = some 2 ∧
    bmLitSearch [97, 97, 98, 97] [97, 97, 97, 97, 98, 97] = (6, 6) := by
  refine ⟨by decide, by decide, by decide, by decide, by decide⟩

/-- C8: the find-first contract fails for the literal Boyer-Moore
searcher.  On pattern `"aaba"` and text `"aaaaba"` an occurrence exists
(the window at position `2` matches, and the naive searcher returns it),
yet `BoyerMooreSearcher<Pattern, void>::operator()` returns the empty
sub-range anchored at the range end, which the contract reserves for the
no-occurrence case. -/
theorem find_first_contract_violated :
    matchesAt byteEq [97, 97, 97, 97, 98, 97] [97, 97, 98, 97] 2 = true ∧
    naiveSearch byteEq [97, 97, 98, 97] [97, 97, 97, 97, 98, 97] = (2, 6) ∧
    bmLitSearch [97, 97, 98, 97] [97, 97, 97, 97, 98, 97]
      = ([97, 97, 97, 97, 98, 97].length, [97, 97, 97, 97, 98, 97].length) := by
  refine ⟨by decide, by decide, by decide⟩

/-- C10: both Boyer-Moore searchers terminate because every iteration of
their search loops either returns or advances the window start by the
computed shift, and both shift computations always yield at least `1`:
the comparator-based `wildShift` at any reachable mismatch reverse index
`j < pattern length`, and the literal `litShift` unconditionally. -/
theorem bm_shifts_at_least_one :
    (∀ (eq : Byte → Byte → Bool) (pat : List Byte) (c : Byte) (j : Nat),
        j < pat.length → 1 ≤ wildShift eq pat c j) ∧
    (∀ (pat : List Byte) (k : Nat) (c : Byte), 1 ≤ litShift pat k c) := by
  exact ⟨fun eq pat c j hj => wildShift_ge_one eq pat c j hj,
         fun pat k c => litShift_ge_one pat k c⟩

/-- Witness for `bm_shifts_at_least_one` at a concrete mismatch: pattern
`"aaba"`, offending byte `'b'`, reverse index `1`, and the literal shift
from the C3 failing input. -/
theorem bm_shifts_at_least_one_witness :
    1 ≤ wildShift wildcardEq [97, 97, 98, 97] 98 1 ∧
    1 ≤ litShift [97, 97, 98, 97] 2 97 := by
  exact ⟨bm_shifts_at_least_one.1 wildcardEq [97, 97, 98, 97] 98 1 (by decide),
         bm_shifts_at_least_one.2 [97, 97, 98, 97] 2 97⟩

/-! Section: Task pool (src/processors/multithreaded_task_processor.hpp)

`MultithreadedTaskProcessor` delegates to a `boost::asio::io_service`:
`operator()` is `io_.post(task)`, `run()` creates the `work_` guard and
spawns threads calling `io_.run()` (after `io_.reset()`), `wait()` drops
the guard and joins the threads.  Per the documented `io_service`
semantics, `post` enqueues its handler unconditionally; queued handlers
execute only while some thread is inside `run()`, and they stay queued
until then — neither `post` on a non-running service nor `reset()`
discards them.  The sequential state machine below records which task
bodies have been invoked. -/

structure PoolState where
  pending : List Nat
  running : Bool
  executed : List Nat
deriving DecidableEq, Repr

/-- A freshly constructed processor: no queued handlers, no worker
threads (`work_` is null), nothing invoked. -/
def PoolState.init : PoolState := ⟨[], false, []⟩

/-- Submission `operator()(task)`, i.e. `io_.post(task)`: the handler is enqueued;
when workers are running they will invoke it (recorded immediately in
this sequential model), otherwise it waits in the service's queue. -/
def PoolState.submit (s : PoolState) (t : Nat) : PoolState :=
  if s.running then { s with executed := s.executed ++ [t] }
  else { s with pending := s.pending ++ [t] }

/-- Operation `run()`: when `work_` is null, reset the service, install the work
guard and start the worker threads, which drain every handler already in
the queue; when already running, do nothing. -/
def PoolState.run (s : PoolState) : PoolState :=
  if s.running then s
  else { pending := [], running := true, executed := s.executed ++ s.pending }

/-- Operation `wait()`: drop the work guard and join whatever workers exist.  With
no worker threads (`run()` never called) no handler is invoked and the
queue is left as it is. -/
def PoolState.wait (s : PoolState) : PoolState :=
  { s with running := false }

/-- C9 (counterexample): a task submitted while the pool is idle is not
discarded — calling `run()` afterwards executes it, contradicting the
claim that the body is never invoked even if `run()` is called later. -/
theorem pool_idle_submit_then_run_executes :
    ((PoolState.init.submit 7).run).executed = [7] ∧ ([7] : List Nat) ≠ [] := by
  exact ⟨rfl, by simp⟩

/-- C9 (amended): a task submitted while the pool is idle sits in the
queue and is not invoked as long as `run()` is not called — in
particular the tested submit-then-`wait()` sequence invokes nothing —
but if `run()` is called after the submission the task body is executed. -/
theorem pool_idle_submit_semantics (t : Nat) :
    ((PoolState.init.submit t).wait).executed = [] ∧
    ((PoolState.init.submit t).wait).pending = [t] ∧
    ((PoolState.init.submit t).run).executed = [t] := by
  refine ⟨rfl, ?_, ?_⟩ <;>
    simp [PoolState.init, PoolState.submit, PoolState.run, PoolState.wait]

/-! Section: Round-Robin strategy
(src/strat/divide_and_conquer.hpp, second revision: `round_robin`,
`detail::handle_rr`, `detail::process_rr`; src/aux/chunk.hpp:
`ChunkHandlerBase`)

`handle_rr` reads chunks from the splitter and stamps them with global
0-based indices.  `process_rr` routes chunk `k` to processor
`k mod (W-1)` when `W >= 2` (one SPSC queue per processor preserves
per-processor FIFO order) and to the single handler when `W = 1`.
`ChunkHandlerBase::operator()(chunk_idx, chunk)` runs the tokenizer and
appends one tuple `(chunk_idx + 1, distance(begin, token.begin()) + 1,
copy(token))` per token.  `round_robin` then reports the summed findings
count, drops empty per-handler ranges, and merges the rest by repeatedly
taking the head of the range whose head has the minimal chunk index
(`boost::min_element`, first minimum), swapping exhausted ranges with the
back before popping. -/

/-- A finding tuple as pushed by `ChunkHandlerBase`: 1-based chunk index,
1-based in-chunk position, matched bytes. -/
abbrev Finding := Nat × Nat × List Byte

/-- Strict ascending order on `(line number, in-line offset)`. -/
def lexLt (a b : Finding) : Prop := a.1 < b.1 ∨ (a.1 = b.1 ∧ a.2.1 < b.2.1)

/-- Key disjointness of two finding lists: no chunk index occurs in both. -/
def KD (a b : List Finding) : Prop := ∀ x ∈ a, ∀ y ∈ b, x.1 ≠ y.1

/-- The tuples `ChunkHandlerBase::operator()` appends for one chunk. -/
def chunkFindings (tok : List Byte → List (Nat × Nat)) (k : Nat) (c : List Byte) :
    List Finding :=
  (tok c).map (fun t => (k + 1, t.1 + 1, (c.drop t.1).take (t.2 - t.1)))

/-- The chunk stream of `handle_rr`: each chunk of the splitter paired
with its global 0-based index. -/
def enumChunks (s : List Byte) (d : Byte) : List (Nat × List Byte) :=
  (splitChunks s d).enum

/-- The per-handler finding lists after all workers have stopped: the
`round_robin` entry normalizes the worker count to `max 1 W`; with
`W' = 1` the single handler receives every chunk, with `W' >= 2` handler
`i < W' - 1` receives the chunks whose index is `i mod (W' - 1)` in
stream order, and the last of the `W'` constructed handlers is never
handed a chunk (the generator is consulted only `W' - 1` times). -/
def rrHandlerLists (tok : List Byte → List (Nat × Nat)) (s : List Byte) (d : Byte)
    (W : Nat) : List (List Finding) :=
  (List.range (max 1 W)).map (fun i =>
    ((enumChunks s d).filter
      (fun kc => kc.1 % (if max 1 W < 2 then 1 else max 1 W - 1) == i)).flatMap
      (fun kc => chunkFindings tok kc.1 kc.2))

/-- The total reported to `findings_number_sink`:
`boost::accumulate` of `handler.findings().size()` over all handlers. -/
def rrCount (tok : List Byte → List (Nat × Nat)) (s : List Byte) (d : Byte)
    (W : Nat) : Nat :=
  ((rrHandlerLists tok s d W).map List.length).sum

/-- The merge input: `boost::remove_erase_if` drops the empty ranges. -/
def rrMergeInput (tok : List Byte → List (Nat × Nat)) (s : List Byte) (d : Byte)
    (W : Nat) : List (List Finding) :=
  (rrHandlerLists tok s d W).filter (fun l => !l.isEmpty)

/-- Chunk-index key of the head of a range (`std::get<0>(*item.first)`). -/
def headKey (l : List Finding) : Nat :=
  match l with
  | [] => 0
  | f :: _ => f.1

/-- Index of the range `boost::min_element` selects: the first range whose
head key is strictly smaller than every earlier head key — i.e. the first
occurrence of the minimal head key. -/
def idxMinKey : List (List Finding) → Nat
  | [] => 0
  | l :: rest =>
    if rest = [] then 0
    else
      if headKey (rest.getD (idxMinKey rest) []) < headKey l then idxMinKey rest + 1
      else 0

/-- Step `*range_it = std::move(result_ranges.back()); result_ranges.pop_back()`:
overwrite position `i` with the last range, then drop the last slot (a
self-move no-op when `i` is already the last position). -/
def swapRemove (ls : List (List Finding)) (i : Nat) : List (List Finding) :=
  (ls.set i ((ls.getLast?).getD [])).dropLast

/-- Total number of findings still held by the ranges. -/
def sumLen (ls : List (List Finding)) : Nat := (ls.map List.length).sum

theorem idxMinKey_lt (ls : List (List Finding)) (h : ls ≠ []) :
    idxMinKey ls < ls.length := by
  induction ls with
  | nil => exact absurd rfl h
  | cons l rest ih =>
    rw [idxMinKey]
    by_cases hr : rest = []
    · rw [if_pos hr]; simp
    · rw [if_neg hr]
      by_cases hlt : headKey (rest.getD (idxMinKey rest) []) < headKey l
      · rw [if_pos hlt]
        have := ih hr
        simpa using Nat.succ_lt_succ this
      · rw [if_neg hlt]; simp

theorem idxMinKey_min (ls : List (List Finding)) (j : Nat) (hj : j < ls.length) :
    headKey (ls.getD (idxMinKey ls) []) ≤ headKey (ls.getD j []) := by
  induction ls generalizing j with
  | nil => simp at hj
  | cons l rest ih =>
    rw [idxMinKey]
    by_cases hr : rest = []
    · rw [if_pos hr]
      subst hr
      cases j with
      | zero => simp
      | succ j' => simp at hj
    · rw [if_neg hr]
      by_cases hlt : headKey (rest.getD (idxMinKey rest) []) < headKey l
      · rw [if_pos hlt]
        cases j with
        | zero => simpa using Nat.le_of_lt hlt
        | succ j' =>
          simp only [List.getD_cons_succ]
          exact ih j' (by simpa using hj)
      · rw [if_neg hlt]
        cases j with
        | zero => simp
        | succ j' =>
          have h1 : headKey l ≤ headKey (rest.getD (idxMinKey rest) []) :=
            Nat.le_of_not_lt hlt
          have h2 := ih j' (by simpa using hj)
          simp only [List.getD_cons_zero, List.getD_cons_succ]
          omega

theorem sumLen_set (ls : List (List Finding)) (i : Nat) (x : List Finding)
    (hi : i < ls.length) :
    sumLen (ls.set i x) + (ls.getD i []).length = sumLen ls + x.length := by
  induction ls generalizing i with
  | nil => simp at hi
  | cons l rest ih =>
    cases i with
    | zero => simp [sumLen]; omega
    | succ i' =>
      have := ih i' (by simpa using hi)
      simp only [List.set_cons_succ, List.getD_cons_succ, sumLen, List.map_cons,
        List.sum_cons] at this ⊢
      omega

theorem sumLen_dropLast (ls : List (List Finding)) (h : ls ≠ []) :
    sumLen ls.dropLast + ((ls.getLast?).getD []).length = sumLen ls := by
  induction ls with
  | nil => exact absurd rfl h
  | cons l rest ih =>
    cases hre : rest with
    | nil => simp [sumLen]
    | cons r rs =>
      have hr : rest ≠ [] := by rw [hre]; simp
      have := ih hr
      rw [← hre]
      rw [dropLast_cons_of_ne_nil l rest hr, getLast?_cons_of_ne_nil l rest hr]
      simp only [sumLen, List.map_cons, List.sum_cons] at this ⊢
      omega

theorem getLast?_set_last (ls : List (List Finding)) (x : List Finding)
    (h : ls ≠ []) : ((ls.set (ls.length - 1) x).getLast?).getD [] = x := by
  induction ls with
  | nil => exact absurd rfl h
  | cons l rest ih =>
    cases hre : rest with
    | nil => simp
    | cons r rs =>
      have hr : rest ≠ [] := by rw [hre]; simp
      rw [← hre]
      have hlen : (l :: rest).length - 1 = rest.length - 1 + 1 := by
        cases rest with
        | nil => exact absurd rfl hr
        | cons a as => simp
      rw [hlen, List.set_cons_succ]
      have hset : rest.set (rest.length - 1) x ≠ [] := by
        cases rest with
        | nil => exact absurd rfl hr
        | cons a as => cases as.length <;> simp
      rw [getLast?_cons_of_ne_nil _ _ hset]
      exact ih hr

theorem getLast?_set_of_lt (ls : List (List Finding)) (x : List Finding) (i : Nat)
    (h : i < ls.length - 1) : (ls.set i x).getLast? = ls.getLast? := by
  induction ls generalizing i with
  | nil => simp
  | cons l rest ih =>
    have hr : rest ≠ [] := by
      cases rest with
      | nil => simp at h
      | cons a as => simp
    cases i with
    | zero =>
      rw [List.set_cons_zero, getLast?_cons_of_ne_nil _ _ hr,
        getLast?_cons_of_ne_nil _ _ hr]
    | succ i' =>
      have hi' : i' < rest.length - 1 := by
        simp only [List.length_cons] at h
        omega
      have hset : rest.set i' x ≠ [] := by
        cases rest with
        | nil => exact absurd rfl hr
        | cons a as => cases i' <;> simp
      rw [List.set_cons_succ, getLast?_cons_of_ne_nil _ _ hset,
        getLast?_cons_of_ne_nil _ _ hr]
      exact ih i' hi'

theorem sumLen_swapRemove (ls : List (List Finding)) (i : Nat) (hi : i < ls.length) :
    sumLen (swapRemove ls i) + (ls.getD i []).length = sumLen ls := by
  have hne : ls ≠ [] := by
    intro hcon; subst hcon; simp at hi
  have hsetne : ls.set i ((ls.getLast?).getD []) ≠ [] := by
    intro hcon
    apply hne
    apply List.length_eq_zero.mp
    have := congrArg List.length hcon
    simpa using this
  unfold swapRemove
  have hdl := sumLen_dropLast (ls.set i ((ls.getLast?).getD [])) hsetne
  have hlast : (((ls.set i ((ls.getLast?).getD [])).getLast?).getD [])
      = (ls.getLast?).getD [] := by
    by_cases hilast : i = ls.length - 1
    · subst hilast
      exact getLast?_set_last ls _ hne
    · have hlt : i < ls.length - 1 := by omega
      rw [getLast?_set_of_lt ls _ i hlt]
  rw [hlast] at hdl
  have hset := sumLen_set ls i ((ls.getLast?).getD []) hi
  omega

/-- The merge loop of `round_robin`: while ranges remain, pick the first
range with the minimal head chunk index, emit its head, advance it, and
when it is exhausted overwrite it with the back range and pop the back. -/
def mergeAll (ls : List (List Finding)) : List Finding :=
  if hne : ls = [] then []
  else
    match hget : ls.getD (idxMinKey ls) [] with
    | [] => []
    | f :: tail =>
      f :: mergeAll (if tail = [] then swapRemove ls (idxMinKey ls)
                     else ls.set (idxMinKey ls) tail)
termination_by sumLen ls
decreasing_by
  have hi := idxMinKey_lt ls hne
  by_cases hte : tail = []
  · rw [dif_pos hte]
    have := sumLen_swapRemove ls (idxMinKey ls) hi
    have hlen : (ls.getD (idxMinKey ls) []).length = 1 := by
      rw [hget, hte]; simp
    omega
  · rw [dif_neg hte]
    have := sumLen_set ls (idxMinKey ls) tail hi
    have hlen : (ls.getD (idxMinKey ls) []).length = tail.length + 1 := by
      rw [hget]; simp
    have htl : 1 ≤ tail.length + 1 := by omega
    omega

theorem getD_mem_of_lt (ls : List (List Finding)) (i : Nat) (hi : i < ls.length) :
    ls.getD i [] ∈ ls := by
  rw [List.getD_eq_getElem ls [] hi]
  exact List.getElem_mem hi

theorem getLastD_eq_getD (ls : List (List Finding)) (h : ls ≠ []) :
    (ls.getLast?).getD [] = ls.getD (ls.length - 1) [] := by
  have hlt : ls.length - 1 < ls.length := by
    have := List.length_pos.mpr h
    omega
  rw [List.getLast?_eq_getLast ls h, Option.getD_some, List.getLast_eq_getElem,
    List.getD_eq_getElem ls [] hlt]

theorem mem_set_elim (ls : List (List Finding)) (i : Nat) (v l' : List Finding)
    (hi : i < ls.length) (h : l' ∈ ls.set i v) :
    l' = v ∨ ∃ j, ∃ hj : j < ls.length, j ≠ i ∧ l' = ls[j] := by
  obtain ⟨j, hj, heq⟩ := List.mem_iff_getElem.mp h
  rw [List.getElem_set] at heq
  by_cases hji : i = j
  · subst hji
    rw [if_pos rfl] at heq
    exact Or.inl heq.symm
  · rw [if_neg hji] at heq
    rw [List.length_set] at hj
    exact Or.inr ⟨j, hj, fun hc => hji hc.symm, heq.symm⟩

theorem mem_swapRemove_elim (ls : List (List Finding)) (i : Nat) (l' : List Finding)
    (hi : i < ls.length) (h : l' ∈ swapRemove ls i) :
    ∃ j, ∃ hj : j < ls.length, j ≠ i ∧ l' = ls[j] := by
  have hne : ls ≠ [] := by intro hc; subst hc; simp at hi
  unfold swapRemove at h
  obtain ⟨j, hj, heq⟩ := List.mem_iff_getElem.mp h
  have hjlt : j < (ls.set i ((ls.getLast?).getD [])).length - 1 := by
    simpa [List.length_dropLast] using hj
  rw [List.getElem_dropLast, List.getElem_set] at heq
  rw [List.length_set] at hjlt
  by_cases hji : i = j
  · subst hji
    rw [if_pos rfl] at heq
    refine ⟨ls.length - 1, by omega, by omega, ?_⟩
    rw [← heq, getLastD_eq_getD ls hne, List.getD_eq_getElem ls [] (by omega)]
  · rw [if_neg hji] at heq
    exact ⟨j, by omega, fun hc => hji hc.symm, heq.symm⟩

theorem KD_symm (a b : List Finding) (h : KD a b) : KD b a :=
  fun x hx y hy => (h y hy x hx).symm

theorem pairwise_KD_get (ls : List (List Finding)) (h : ls.Pairwise KD)
    (p q : Nat) (hp : p < ls.length) (hq : q < ls.length) (hpq : p ≠ q) :
    KD ls[p] ls[q] := by
  rcases Nat.lt_or_ge p q with hlt | hge
  · exact List.pairwise_iff_getElem.mp h p q hp hq hlt
  · have hlt : q < p := by omega
    exact KD_symm _ _ (List.pairwise_iff_getElem.mp h q p hq hp hlt)

theorem sorted_headKey_le (l : List Finding) (h : l.Pairwise lexLt) :
    ∀ x ∈ l, headKey l ≤ x.1 := by
  cases l with
  | nil => intro x hx; simp at hx
  | cons f t =>
    intro x hx
    rcases List.mem_cons.mp hx with hx | hx
    · subst hx; exact Nat.le_refl _
    · have := (List.pairwise_cons.mp h).1 x hx
      unfold headKey
      rcases this with hlt | ⟨heq, _⟩
      · exact Nat.le_of_lt hlt
      · exact Nat.le_of_eq heq

theorem mergeAll_nil : mergeAll [] = [] := by
  rw [mergeAll]; simp

theorem mergeAll_cons_eq (ls : List (List Finding)) (f : Finding)
    (tail : List Finding) (hne : ls ≠ [])
    (hget : ls.getD (idxMinKey ls) [] = f :: tail) :
    mergeAll ls = f :: mergeAll (if _h : tail = [] then swapRemove ls (idxMinKey ls)
                                 else ls.set (idxMinKey ls) tail) := by
  rw [mergeAll, dif_neg hne]
  split
  · rename_i heq
    rw [hget] at heq
    exact absurd heq (by simp)
  · rename_i f' tail' heq
    rw [hget] at heq
    injection heq with hf ht
    subst hf; subst ht
    rfl

/-- The per-step new state of the merge loop keeps only lists that are
sub-lists (by membership) of the original lists, in the precise indexed
sense needed below. -/
theorem merge_step_mem (ls : List (List Finding)) (f : Finding) (tail : List Finding)
    (hne : ls ≠ []) (hget : ls.getD (idxMinKey ls) [] = f :: tail) (l' : List Finding)
    (hl' : l' ∈ (if _h : tail = [] then swapRemove ls (idxMinKey ls)
                 else ls.set (idxMinKey ls) tail)) :
    l' = tail ∨ ∃ j, ∃ hj : j < ls.length, j ≠ idxMinKey ls ∧ l' = ls[j] := by
  have hi := idxMinKey_lt ls hne
  by_cases hte : tail = []
  · rw [dif_pos hte] at hl'
    exact Or.inr (mem_swapRemove_elim ls (idxMinKey ls) l' hi hl')
  · rw [dif_neg hte] at hl'
    exact mem_set_elim ls (idxMinKey ls) tail l' hi hl'

theorem mergeAll_mem (ls : List (List Finding)) (x : Finding)
    (hx : x ∈ mergeAll ls) : ∃ l, l ∈ ls ∧ x ∈ l := by
  induction ls using mergeAll.induct with
  | case1 => rw [mergeAll_nil] at hx; simp at hx
  | case2 ls hne hget =>
    rw [mergeAll, dif_neg hne] at hx
    split at hx
    · simp at hx
    · rename_i heq
      rw [hget] at heq
      exact absurd heq.symm (by simp)
  | case3 ls hne f tail hget ih =>
    rw [mergeAll_cons_eq ls f tail hne hget] at hx
    have hi := idxMinKey_lt ls hne
    rcases List.mem_cons.mp hx with hx | hx
    · subst hx
      exact ⟨ls.getD (idxMinKey ls) [], getD_mem_of_lt ls _ hi, by rw [hget]; simp⟩
    · obtain ⟨l', hl', hxl'⟩ := ih hx
      rcases merge_step_mem ls f tail hne hget l' hl' with hl | ⟨j, hj, _, hl⟩
      · subst hl
        exact ⟨ls.getD (idxMinKey ls) [], getD_mem_of_lt ls _ hi,
          by rw [hget]; exact List.mem_cons_of_mem f hxl'⟩
      · subst hl
        exact ⟨ls[j], List.getElem_mem hj, hxl'⟩

theorem mergeAll_length (ls : List (List Finding))
    (hne : ∀ l ∈ ls, l ≠ []) : (mergeAll ls).length = sumLen ls := by
  induction ls using mergeAll.induct with
  | case1 => rw [mergeAll_nil]; simp [sumLen]
  | case2 ls hlsne hget =>
    have hi := idxMinKey_lt ls hlsne
    have := hne _ (getD_mem_of_lt ls _ hi)
    exact absurd hget this
  | case3 ls hlsne f tail hget ih =>
    have hi := idxMinKey_lt ls hlsne
    have hneS : ∀ l ∈ (if _h : tail = [] then swapRemove ls (idxMinKey ls)
                       else ls.set (idxMinKey ls) tail), l ≠ [] := by
      intro l' hl'
      by_cases hte : tail = []
      · rw [dif_pos hte] at hl'
        obtain ⟨j, hj, _, hlj⟩ := mem_swapRemove_elim ls (idxMinKey ls) _ hi hl'
        rw [hlj]
        exact hne _ (List.getElem_mem hj)
      · rw [dif_neg hte] at hl'
        rcases mem_set_elim ls (idxMinKey ls) tail l' hi hl' with hl | ⟨j, hj, _, hl⟩
        · rw [hl]; exact hte
        · rw [hl]; exact hne _ (List.getElem_mem hj)
    rw [mergeAll_cons_eq ls f tail hlsne hget]
    rw [List.length_cons, ih hneS]
    by_cases hte : tail = []
    · rw [dif_pos hte]
      have := sumLen_swapRemove ls (idxMinKey ls) hi
      have hlen : (ls.getD (idxMinKey ls) []).length = 1 := by
        rw [hget, hte]; simp
      omega
    · rw [dif_neg hte]
      have := sumLen_set ls (idxMinKey ls) tail hi
      have hlen : (ls.getD (idxMinKey ls) []).length = tail.length + 1 := by
        rw [hget]; simp
      omega

theorem mergeAll_pairwise (ls : List (List Finding))
    (hne : ∀ l ∈ ls, l ≠ [])
    (hsort : ∀ l ∈ ls, l.Pairwise lexLt)
    (hdisj : ls.Pairwise KD) :
    (mergeAll ls).Pairwise lexLt := by
  induction ls using mergeAll.induct with
  | case1 => rw [mergeAll_nil]; simp
  | case2 ls hlsne hget =>
    rw [mergeAll, dif_neg hlsne]
    split
    · simp
    · rename_i heq
      rw [hget] at heq
      exact absurd heq.symm (by simp)
  | case3 ls hlsne f tail hget ih =>
    have hi := idxMinKey_lt ls hlsne
    have hgetE : ls[idxMinKey ls] = f :: tail := by
      rw [← List.getD_eq_getElem ls [] hi]; exact hget
    have hsorted_i : (f :: tail).Pairwise lexLt := by
      rw [← hget]; exact hsort _ (getD_mem_of_lt ls _ hi)
    -- invariants for the stepped state
    have hneS : ∀ l ∈ (if _h : tail = [] then swapRemove ls (idxMinKey ls)
                       else ls.set (idxMinKey ls) tail), l ≠ [] := by
      intro l' hl'
      by_cases hte : tail = []
      · rw [dif_pos hte] at hl'
        obtain ⟨j, hj, _, hlj⟩ := mem_swapRemove_elim ls (idxMinKey ls) _ hi hl'
        rw [hlj]
        exact hne _ (List.getElem_mem hj)
      · rw [dif_neg hte] at hl'
        rcases mem_set_elim ls (idxMinKey ls) tail l' hi hl' with hl | ⟨j, hj, _, hl⟩
        · rw [hl]; exact hte
        · rw [hl]; exact hne _ (List.getElem_mem hj)
    have hsortS : ∀ l ∈ (if _h : tail = [] then swapRemove ls (idxMinKey ls)
                         else ls.set (idxMinKey ls) tail), l.Pairwise lexLt := by
      intro l' hl'
      rcases merge_step_mem ls f tail hlsne hget l' hl' with hl | ⟨j, hj, _, hl⟩
      · subst hl
        exact (List.pairwise_cons.mp hsorted_i).2
      · subst hl
        exact hsort _ (List.getElem_mem hj)
    have hdisjS : (if _h : tail = [] then swapRemove ls (idxMinKey ls)
                   else ls.set (idxMinKey ls) tail).Pairwise KD := by
      by_cases hte : tail = []
      · rw [dif_pos hte]
        rw [List.pairwise_iff_getElem]
        intro p q hp hq hpq
        have hplen : p < ls.length - 1 := by
          simpa [swapRemove, List.length_dropLast] using hp
        have hqlen : q < ls.length - 1 := by
          simpa [swapRemove, List.length_dropLast] using hq
        have hplt : p < ls.length := by omega
        have hqlt : q < ls.length := by omega
        have hgetp : (swapRemove ls (idxMinKey ls))[p]
            = if idxMinKey ls = p then (ls.getLast?).getD [] else ls[p] := by
          unfold swapRemove
          rw [List.getElem_dropLast, List.getElem_set]
        have hgetq : (swapRemove ls (idxMinKey ls))[q]
            = if idxMinKey ls = q then (ls.getLast?).getD [] else ls[q] := by
          unfold swapRemove
          rw [List.getElem_dropLast, List.getElem_set]
        have hlen1 : ls.length - 1 < ls.length := by
          have := List.length_pos.mpr hlsne
          omega
        have hlastE : (ls.getLast?).getD [] = ls[ls.length - 1] := by
          rw [getLastD_eq_getD ls hlsne, List.getD_eq_getElem ls [] hlen1]
        rw [hgetp, hgetq]
        by_cases hip : idxMinKey ls = p
        · rw [if_pos hip, if_neg (by omega : ¬ idxMinKey ls = q), hlastE]
          exact pairwise_KD_get ls hdisj _ _ (by omega) (by omega) (by omega)
        · rw [if_neg hip]
          by_cases hiq : idxMinKey ls = q
          · rw [if_pos hiq, hlastE]
            exact pairwise_KD_get ls hdisj _ _ (by omega) (by omega) (by omega)
          · rw [if_neg hiq]
            exact pairwise_KD_get ls hdisj _ _ (by omega) (by omega) (by omega)
      · rw [dif_neg hte]
        rw [List.pairwise_iff_getElem]
        intro p q hp hq hpq
        have hplen : p < ls.length := by simpa using hp
        have hqlen : q < ls.length := by simpa using hq
        have htail_sub : ∀ y ∈ tail, y ∈ ls[idxMinKey ls] := by
          intro y hy; rw [hgetE]; exact List.mem_cons_of_mem f hy
        rw [List.getElem_set, List.getElem_set]
        by_cases hip : idxMinKey ls = p
        · rw [if_pos hip, if_neg (by omega : ¬ idxMinKey ls = q)]
          intro x hx y hy
          exact pairwise_KD_get ls hdisj _ _ (by omega) hqlen (by omega)
            x (htail_sub x hx) y hy
        · rw [if_neg hip]
          by_cases hiq : idxMinKey ls = q
          · rw [if_pos hiq]
            intro x hx y hy
            exact pairwise_KD_get ls hdisj _ _ hplen (by omega) (by omega)
              x hx y (htail_sub y hy)
          · rw [if_neg hiq]
            exact pairwise_KD_get ls hdisj _ _ hplen hqlen (by omega)
    -- every remaining element is strictly after the emitted head
    have hstep_gt : ∀ l' ∈ (if _h : tail = [] then swapRemove ls (idxMinKey ls)
                            else ls.set (idxMinKey ls) tail), ∀ y ∈ l', lexLt f y := by
      intro l' hl' y hy
      rcases merge_step_mem ls f tail hlsne hget l' hl' with hl | ⟨j, hj, hji, hl⟩
      · subst hl
        exact (List.pairwise_cons.mp hsorted_i).1 y hy
      · subst hl
        have hk1 : f.1 = headKey (ls.getD (idxMinKey ls) []) := by
          rw [hget]; rfl
        have hk2 : headKey (ls.getD (idxMinKey ls) []) ≤ headKey (ls.getD j []) :=
          idxMinKey_min ls j hj
        have hk3 : headKey (ls.getD j []) ≤ y.1 := by
          apply sorted_headKey_le _ (hsort _ (getD_mem_of_lt ls j hj))
          rw [List.getD_eq_getElem ls [] hj]
          exact hy
        have hk4 : f.1 ≠ y.1 := by
          apply pairwise_KD_get ls hdisj (idxMinKey ls) j hi hj (fun hc => hji hc.symm)
            f (by rw [hgetE]; simp) y hy
        exact Or.inl (by omega)
    rw [mergeAll_cons_eq ls f tail hlsne hget]
    rw [List.pairwise_cons]
    refine ⟨?_, ih hneS hsortS hdisjS⟩
    intro y hy
    obtain ⟨l', hl', hyl'⟩ := mergeAll_mem _ y hy
    exact hstep_gt l' hl' y hyl'

/-- The merged finding stream `round_robin` hands to `findings_sink`. -/
def rrFindings (tok : List Byte → List (Nat × Nat)) (s : List Byte) (d : Byte)
    (W : Nat) : List Finding :=
  mergeAll (rrMergeInput tok s d W)

theorem enumFrom_pairwise_fst (n : Nat) (l : List (List Byte)) :
    (List.enumFrom n l).Pairwise (fun a b : Nat × List Byte => a.1 < b.1) := by
  induction l generalizing n with
  | nil => simp
  | cons c cs ih =>
    rw [List.enumFrom_cons, List.pairwise_cons]
    refine ⟨?_, ih (n + 1)⟩
    intro x hx
    have : n + 1 ≤ x.1 := by
      obtain ⟨a, b⟩ := x
      exact (List.mem_enumFrom hx).1
    simpa using this

theorem chunkFindings_key (tok : List Byte → List (Nat × Nat)) (k : Nat)
    (c : List Byte) : ∀ x ∈ chunkFindings tok k c, x.1 = k + 1 := by
  intro x hx
  unfold chunkFindings at hx
  obtain ⟨t, _, ht⟩ := List.mem_map.mp hx
  rw [← ht]

theorem chunkFindings_pairwise (eq : Byte → Byte → Bool) (pat : List Byte) (k : Nat)
    (c : List Byte) : (chunkFindings (tokenize eq pat) k c).Pairwise lexLt := by
  unfold chunkFindings
  rw [List.pairwise_map]
  have hpw := tokenizeAux_pairwise eq pat c 0
  have hb := tokenizeAux_bounds eq pat c 0
  apply List.Pairwise.imp_of_mem ?_ hpw
  intro a b ha hb2 hab
  have h1 := (hb a ha).2.1
  refine Or.inr ⟨rfl, ?_⟩
  show a.1 + 1 < b.1 + 1
  omega

theorem flatMap_chunkFindings_pairwise (eq : Byte → Byte → Bool) (pat : List Byte)
    (kcs : List (Nat × List Byte))
    (hkc : kcs.Pairwise (fun a b : Nat × List Byte => a.1 < b.1)) :
    (kcs.flatMap (fun kc => chunkFindings (tokenize eq pat) kc.1 kc.2)).Pairwise lexLt := by
  induction kcs with
  | nil => simp
  | cons kc rest ih =>
    rw [List.flatMap_cons, List.pairwise_append]
    obtain ⟨hhead, htail⟩ := List.pairwise_cons.mp hkc
    refine ⟨chunkFindings_pairwise eq pat kc.1 kc.2, ih htail, ?_⟩
    intro x hx y hy
    obtain ⟨kc', hkc', hykc'⟩ := List.mem_flatMap.mp hy
    have hx1 := chunkFindings_key _ _ _ x hx
    have hy1 := chunkFindings_key _ _ _ y hykc'
    have := hhead kc' hkc'
    exact Or.inl (by omega)

theorem handler_key_residue (tok : List Byte → List (Nat × Nat)) (s : List Byte)
    (d : Byte) (P i : Nat) (x : Finding)
    (hx : x ∈ ((enumChunks s d).filter (fun kc => kc.1 % P == i)).flatMap
      (fun kc => chunkFindings tok kc.1 kc.2)) :
    ∃ k, x.1 = k + 1 ∧ k % P = i := by
  obtain ⟨kc, hkc, hxkc⟩ := List.mem_flatMap.mp hx
  have hmod : kc.1 % P = i := by
    have := List.of_mem_filter hkc
    simpa using this
  exact ⟨kc.1, chunkFindings_key tok kc.1 kc.2 x hxkc, hmod⟩

theorem rrHandlerLists_sorted (eq : Byte → Byte → Bool) (pat : List Byte)
    (s : List Byte) (d : Byte) (W : Nat) :
    ∀ l ∈ rrHandlerLists (tokenize eq pat) s d W, l.Pairwise lexLt := by
  intro l hl
  unfold rrHandlerLists at hl
  obtain ⟨i, _, hli⟩ := List.mem_map.mp hl
  rw [← hli]
  apply flatMap_chunkFindings_pairwise
  apply List.Pairwise.filter
  exact enumFrom_pairwise_fst 0 (splitChunks s d)

theorem rrHandlerLists_disj (tok : List Byte → List (Nat × Nat)) (s : List Byte)
    (d : Byte) (W : Nat) : (rrHandlerLists tok s d W).Pairwise KD := by
  unfold rrHandlerLists
  rw [List.pairwise_map]
  apply List.Pairwise.imp_of_mem ?_ (List.pairwise_lt_range (max 1 W))
  intro i j _ _ hij
  intro x hx y hy
  obtain ⟨k1, hk1, hm1⟩ := handler_key_residue tok s d _ i x hx
  obtain ⟨k2, hk2, hm2⟩ := handler_key_residue tok s d _ j y hy
  intro hcon
  have : k1 = k2 := by omega
  subst this
  rw [hm1] at hm2
  exact Nat.lt_irrefl i (hm2 ▸ hij)

/-- C5: the sequence of findings `round_robin` passes to `findings_sink`
is strictly ascending in `(line number, in-line offset)` lexicographic
order, for every source, pattern, comparator, delimiter and worker
count: the per-handler lists are sorted, their chunk-index sets are
disjoint (handler `i` owns the residue class `i mod (W-1)`), and the
`min_element` merge loop preserves the order. -/
theorem rr_findings_strictly_ascending (eq : Byte → Byte → Bool) (pat : List Byte)
    (s : List Byte) (d : Byte) (W : Nat) :
    (rrFindings (tokenize eq pat) s d W).Pairwise lexLt := by
  apply mergeAll_pairwise
  · intro l hl
    have := List.of_mem_filter hl
    simpa [List.isEmpty_iff] using this
  · intro l hl
    exact rrHandlerLists_sorted eq pat s d W l (List.mem_of_mem_filter hl)
  · exact List.Pairwise.filter _ (rrHandlerLists_disj (tokenize eq pat) s d W)

theorem sumLen_filter_ne_empty (ls : List (List Finding)) :
    sumLen (ls.filter (fun l => !l.isEmpty)) = sumLen ls := by
  induction ls with
  | nil => rfl
  | cons l rest ih =>
    by_cases hl : l.isEmpty
    · have : l = [] := by simpa [List.isEmpty_iff] using hl
      subst this
      simpa [sumLen] using ih
    · rw [List.filter_cons]
      simp only [hl, Bool.not_false, if_true]
      simp only [sumLen, List.map_cons, List.sum_cons] at ih ⊢
      omega

theorem rrCount_eq_length (tok : List Byte → List (Nat × Nat)) (s : List Byte)
    (d : Byte) (W : Nat) : rrCount tok s d W = (rrFindings tok s d W).length := by
  unfold rrCount rrFindings
  rw [mergeAll_length]
  · exact (sumLen_filter_ne_empty (rrHandlerLists tok s d W)).symm
  · intro l hl
    have := List.of_mem_filter hl
    simpa [List.isEmpty_iff] using this

/-! Section: Divide-and-Conquer strategy
(src/strat/divide_and_conquer.hpp, first revision: `divide_and_conquer`,
`detail::generate_chunk_handlers_tasks`; src/aux/line_handler_ctx.hpp:
`ChunkHandlerCtx`)

`divide_and_conquer` normalizes `workers_count` to at least 1, computes a
target width `distance / tasks_number` (at least 1), and cuts the range
into pieces: each non-final cut point is `std::find` of the delimiter from
`first + min(width, remaining)` advanced over the whole run of consecutive
delimiters; the final piece extends to the end.  Each task splits its
piece with a `RangeSplitter`, handing every chunk (empty ones included —
`process_empty_chunks` is true) to its handler, which records one group
`(local_chunk_idx + 1, [(offset+1, bytes), ...])` per chunk with a
nonempty token list and unconditionally updates `last_chunk_idx =
local_chunk_idx + 1`.  The emission loop then walks the contexts in task
order, adds the running `chunk_offset` to each group's index, sends the
group to the sink, and afterwards adds the context's `last_chunk_idx` to
the offset.  The delimiter byte is `'\n'` in the source, used consistently
in both the cutter and the splitter; it is the parameter `d` here. -/

/-- Normalization of `workers_count` at the `divide_and_conquer` entry. -/
def dncW (W : Nat) : Nat := if W = 0 then 1 else W

/-- Width `data_chunk_size`: `distance / tasks_number`, replaced by 1 when 0. -/
def dncWidth (n W' : Nat) : Nat := if n / W' = 0 then 1 else n / W'

/-- Model of `std::find(first + p, end, delim)` as a position: the first position
at or after `p` holding the delimiter, or the length when none does. -/
def findFrom (src : List Byte) (d : Byte) (p : Nat) : Nat :=
  p + ((src.drop p).takeWhile (fun c => c != d)).length

/-- The `while (end != last && *last == delim) ++last;` loop: advance over
the run of consecutive delimiters starting at `p`. -/
def skipRun (src : List Byte) (d : Byte) (p : Nat) : Nat :=
  p + ((src.drop p).takeWhile (fun c => c == d)).length

/-- The cut point for the piece starting at `f` when `i` pieces have been
cut already; the width is carried as `w0` with the actual width `w0 + 1`,
which is justified because the code forces `data_chunk_size` to be at
least 1. -/
def dncStop (src : List Byte) (d : Byte) (W' w0 f i : Nat) : Nat :=
  if i < W' - 1 then skipRun src d (findFrom src d (f + min (w0 + 1) (src.length - f)))
  else src.length

theorem takeWhile_length_le (p : Byte → Bool) (l : List Byte) :
    (l.takeWhile p).length ≤ l.length := by
  induction l with
  | nil => simp
  | cons a as ih =>
    rw [List.takeWhile_cons]
    by_cases hp : p a
    · rw [if_pos hp]
      simpa using ih
    · rw [if_neg hp]
      simp

theorem findFrom_le (src : List Byte) (d : Byte) (p : Nat) (hp : p ≤ src.length) :
    findFrom src d p ≤ src.length := by
  unfold findFrom
  have h1 : (List.takeWhile (fun c => c != d) (src.drop p)).length
      ≤ (src.drop p).length := takeWhile_length_le _ _
  rw [List.length_drop] at h1
  omega

theorem skipRun_le (src : List Byte) (d : Byte) (p : Nat) (hp : p ≤ src.length) :
    skipRun src d p ≤ src.length := by
  unfold skipRun
  have h1 : (List.takeWhile (fun c => c == d) (src.drop p)).length
      ≤ (src.drop p).length := takeWhile_length_le _ _
  rw [List.length_drop] at h1
  omega

theorem dncStop_gt (src : List Byte) (d : Byte) (W' w0 f i : Nat)
    (hf : f < src.length) : f < dncStop src d W' w0 f i := by
  unfold dncStop
  split
  · have h1 : f + 1 ≤ f + min (w0 + 1) (src.length - f) := by
      have : 1 ≤ min (w0 + 1) (src.length - f) := by
        apply le_min <;> omega
      omega
    have h2 : f + min (w0 + 1) (src.length - f)
        ≤ findFrom src d (f + min (w0 + 1) (src.length - f)) := by
      unfold findFrom; omega
    have h3 : findFrom src d (f + min (w0 + 1) (src.length - f))
        ≤ skipRun src d (findFrom src d (f + min (w0 + 1) (src.length - f))) := by
      unfold skipRun; omega
    omega
  · exact hf

theorem dncStop_le (src : List Byte) (d : Byte) (W' w0 f i : Nat)
    (hf : f < src.length) : dncStop src d W' w0 f i ≤ src.length := by
  unfold dncStop
  split
  · apply skipRun_le
    apply findFrom_le
    omega
  · exact Nat.le_refl _

/-- The piece-cutting loop of `generate_chunk_handlers_tasks`: from
position `f` with `i` pieces already cut, emit `(f, stop)` and continue
from `stop` until the end of the range. -/
def dncBoundsGo (src : List Byte) (d : Byte) (W' w0 : Nat) (f i : Nat) :
    List (Nat × Nat) :=
  if f < src.length then
    (f, dncStop src d W' w0 f i) :: dncBoundsGo src d W' w0 (dncStop src d W' w0 f i) (i + 1)
  else []
termination_by src.length - f
decreasing_by
  rename_i hf
  have h1 := dncStop_gt src d W' w0 f i hf
  have h2 := dncStop_le src d W' w0 f i hf
  omega

/-- The byte sub-ranges assigned to the tasks, in task order. -/
def dncPieces (src : List Byte) (d : Byte) (W : Nat) : List (Nat × Nat) :=
  dncBoundsGo src d (dncW W) (dncWidth src.length (dncW W) - 1) 0 0

/-- The bytes of a piece `[a, b)`. -/
def pieceText (src : List Byte) (ab : Nat × Nat) : List Byte :=
  (src.drop ab.1).take (ab.2 - ab.1)

/-- A group sent to the Divide-and-Conquer findings sink: 1-based chunk
index and the per-chunk findings `(1-based offset, matched bytes)`. -/
abbrev Group := Nat × List (Nat × List Byte)

/-- What `ChunkHandlerCtx::consume` records for one chunk, wrapped by the
handler that skips empty chunks and chunks without tokens (the
`last_chunk_idx` update happens regardless and is accounted separately). -/
def dncGroup (tok : List Byte → List (Nat × Nat)) (k : Nat) (c : List Byte) :
    Option Group :=
  if c = [] then none
  else if tok c = [] then none
  else some (k + 1, (tok c).map (fun t => (t.1 + 1, (c.drop t.1).take (t.2 - t.1))))

/-- The groups one worker's context holds after its task finished: its
piece's chunks in local order, consumed when nonempty with tokens. -/
def dncGroups (tok : List Byte → List (Nat × Nat)) (d : Byte) (piece : List Byte) :
    List Group :=
  ((splitChunks piece d).enum).filterMap (fun kc => dncGroup tok kc.1 kc.2)

/-- Value of `last_chunk_idx` after a task: `set_last_chunk_idx(chunk_idx)` runs for
every chunk (empty included), leaving local index of the last chunk plus
one — zero when the piece produced no chunk. -/
def dncLast (d : Byte) (piece : List Byte) : Nat :=
  ((splitChunks piece d).enum).foldl (fun _ kc => kc.1 + 1) 0

/-- The emission loop: walk the contexts in task order; emit each group
with the running `chunk_offset` added, then add the context's
`last_chunk_idx` to the offset. -/
def dncEmitGo (tok : List Byte → List (Nat × Nat)) (d : Byte) :
    List (List Byte) → Nat → List Group
  | [], _ => []
  | p :: ps, off =>
    (dncGroups tok d p).map (fun g => (g.1 + off, g.2))
      ++ dncEmitGo tok d ps (off + dncLast d p)

/-- The full group sequence `divide_and_conquer` sends to its findings
sink.  Contexts beyond the generated tasks stay empty with
`last_chunk_idx = 0` and contribute nothing, so only the pieces appear. -/
def dncEmit (tok : List Byte → List (Nat × Nat)) (src : List Byte) (d : Byte)
    (W : Nat) : List Group :=
  dncEmitGo tok d ((dncPieces src d W).map (pieceText src)) 0

/-- The same groups computed from the undivided source with global chunk
indices: group `(i + 1, …)` for the chunk at global 0-based index `i`. -/
def dncRef (tok : List Byte → List (Nat × Nat)) (src : List Byte) (d : Byte) :
    List Group :=
  ((splitChunks src d).enum).filterMap (fun kc => dncGroup tok kc.1 kc.2)

/-- The total printed before emission: the summed `chunks_findings` sizes
of all contexts. -/
def dncCount (tok : List Byte → List (Nat × Nat)) (src : List Byte) (d : Byte)
    (W : Nat) : Nat :=
  (((dncPieces src d W).map
    (fun ab => (dncGroups tok d (pieceText src ab)).length)).sum)

theorem getD_drop (l : List Byte) (i j : Nat) :
    (l.drop i).getD j 0 = l.getD (i + j) 0 := by
  induction l generalizing i with
  | nil => simp
  | cons a as ih =>
    cases i with
    | zero => simp
    | succ i' =>
      rw [List.drop_succ_cons]
      rw [ih i']
      simp [Nat.succ_add]

theorem getD_take (l : List Byte) (n j : Nat) (h : j < n) :
    (l.take n).getD j 0 = l.getD j 0 := by
  induction l generalizing n j with
  | nil => simp
  | cons a as ih =>
    cases n with
    | zero => omega
    | succ n' =>
      rw [List.take_succ_cons]
      cases j with
      | zero => simp
      | succ j' => simpa using ih n' j' (by omega)

theorem getLast?_eq_getD (l : List Byte) (h : l ≠ []) :
    l.getLast? = some (l.getD (l.length - 1) 0) := by
  induction l with
  | nil => exact absurd rfl h
  | cons a as ih =>
    cases has : as with
    | nil => simp
    | cons b bs =>
      rw [← has]
      have hane : as ≠ [] := by rw [has]; simp
      rw [getLast?_cons_of_ne_nil a as hane, ih hane]
      have : (a :: as).length - 1 = (as.length - 1) + 1 := by
        rw [has]; simp
      rw [this, List.getD_cons_succ]

theorem takeWhile_getD_false (p : Byte → Bool) (l : List Byte)
    (h : (l.takeWhile p).length < l.length) :
    p (l.getD (l.takeWhile p).length 0) = false := by
  induction l with
  | nil => simp at h
  | cons a as ih =>
    rw [List.takeWhile_cons] at h ⊢
    by_cases hp : p a
    · rw [if_pos hp] at h ⊢
      rw [List.length_cons, List.getD_cons_succ]
      exact ih (by simpa using h)
    · rw [if_neg hp] at h ⊢
      simpa using hp

theorem takeWhile_getD_true (p : Byte → Bool) (l : List Byte) (j : Nat)
    (h : j < (l.takeWhile p).length) : p (l.getD j 0) = true := by
  induction l generalizing j with
  | nil => simp at h
  | cons a as ih =>
    rw [List.takeWhile_cons] at h
    by_cases hp : p a
    · rw [if_pos hp] at h
      cases j with
      | zero => simpa using hp
      | succ j' =>
        rw [List.getD_cons_succ]
        exact ih j' (by simpa using h)
    · rw [if_neg hp] at h
      simp at h

theorem findFrom_char (src : List Byte) (d : Byte) (p : Nat)
    (h : findFrom src d p < src.length) : src.getD (findFrom src d p) 0 = d := by
  unfold findFrom at h ⊢
  have hlt : ((src.drop p).takeWhile (fun c => c != d)).length < (src.drop p).length := by
    rw [List.length_drop]
    omega
  have := takeWhile_getD_false (fun c => c != d) (src.drop p) hlt
  rw [getD_drop] at this
  simpa using this

theorem skipRun_run (src : List Byte) (d : Byte) (q j : Nat)
    (h : j < ((src.drop q).takeWhile (fun c => c == d)).length) :
    src.getD (q + j) 0 = d := by
  have := takeWhile_getD_true (fun c => c == d) (src.drop q) j h
  rw [getD_drop] at this
  simpa using this

/-- The cut point of a non-final piece sits right after a delimiter:
when it is not the end of the range, the byte before it is `d`. -/
theorem dncStop_boundary (src : List Byte) (d : Byte) (W' w0 f i : Nat)
    (hf : f < src.length) (hlt : dncStop src d W' w0 f i < src.length) :
    src.getD (dncStop src d W' w0 f i - 1) 0 = d := by
  unfold dncStop at hlt ⊢
  by_cases hi : i < W' - 1
  · rw [if_pos hi] at hlt ⊢
    set q0 := f + min (w0 + 1) (src.length - f) with hq0
    have hq0le : q0 ≤ src.length := by
      have : min (w0 + 1) (src.length - f) ≤ src.length - f := Nat.min_le_right _ _
      omega
    set q := findFrom src d q0 with hq
    have hqle : q ≤ src.length := findFrom_le src d q0 hq0le
    unfold skipRun at hlt ⊢
    by_cases hqn : q = src.length
    · rw [hqn] at hlt
      simp at hlt
    · have hqlt : q < src.length := by omega
      have hchar : src.getD q 0 = d := findFrom_char src d q0 (by rw [← hq]; omega)
      have hrun1 : 1 ≤ ((src.drop q).takeWhile (fun c => c == d)).length := by
        have hdq : src.drop q = src.getD q 0 :: src.drop (q + 1) := by
          rw [List.getD_eq_getElem src 0 hqlt]
          exact (List.drop_eq_getElem_cons hqlt)
        rw [hdq, List.takeWhile_cons]
        rw [hchar]
        simp
      have := skipRun_run src d q
        (((src.drop q).takeWhile (fun c => c == d)).length - 1) (by omega)
      have harith : q + (((src.drop q).takeWhile (fun c => c == d)).length - 1)
          = q + ((src.drop q).takeWhile (fun c => c == d)).length - 1 := by omega
      rw [harith] at this
      exact this
  · rw [if_neg hi] at hlt
    omega

/-- Splitting distributes over concatenation at a point just after a
delimiter. -/
theorem splitChunks_append (d : Byte) (A B : List Byte) (hA : A ≠ [])
    (hlast : A.getLast? = some d) :
    splitChunks (A ++ B) d = splitChunks A d ++ splitChunks B d := by
  induction A with
  | nil => exact absurd rfl hA
  | cons c A' ih =>
    by_cases hc : c = d
    · subst hc
      rw [List.cons_append, splitChunks_cons_delim, splitChunks_cons_delim]
      cases hA' : A' with
      | nil => simp [splitChunks_nil]
      | cons a as =>
        rw [← hA']
        have hA'ne : A' ≠ [] := by rw [hA']; simp
        have hlast' : A'.getLast? = some c := by
          rw [← getLast?_cons_of_ne_nil c A' hA'ne]
          exact hlast
        rw [ih hA'ne hlast']
        simp
    · have hA'ne : A' ≠ [] := by
        intro hcon
        subst hcon
        simp only [List.getLast?_singleton, Option.some.injEq] at hlast
        exact hc hlast
      have hlast' : A'.getLast? = some d := by
        rw [← getLast?_cons_of_ne_nil c A' hA'ne]
        exact hlast
      rw [List.cons_append, splitChunks_cons_ne d c _ hc, splitChunks_cons_ne d c _ hc]
      rw [ih hA'ne hlast']
      have hsne : splitChunks A' d ≠ [] := by
        rw [Ne, splitChunks_eq_nil_iff]
        exact hA'ne
      cases hsp : splitChunks A' d with
      | nil => exact absurd hsp hsne
      | cons s ss => simp

/-- The chunks of the pieces, concatenated in task order, are exactly the
chunks of the undivided remainder of the source: each non-final cut point
sits right after a delimiter, so no chunk straddles a cut. -/
theorem dncBoundsGo_chunks (src : List Byte) (d : Byte) (W' w0 : Nat) :
    ∀ f i, f ≤ src.length →
      ((dncBoundsGo src d W' w0 f i).map
        (fun ab => splitChunks (pieceText src ab) d)).flatten
        = splitChunks (src.drop f) d := by
  intro f i
  induction f, i using dncBoundsGo.induct src d W' w0 with
  | case2 f i hf =>
    intro hle
    have hfn : f = src.length := by omega
    rw [dncBoundsGo, if_neg hf]
    subst hfn
    simp [splitChunks_nil]
  | case1 f i hf ih =>
    intro hle
    rw [dncBoundsGo, if_pos hf]
    rw [List.map_cons, List.flatten_cons]
    have hstople := dncStop_le src d W' w0 f i hf
    have hstopgt := dncStop_gt src d W' w0 f i hf
    rw [ih hstople]
    set stop := dncStop src d W' w0 f i with hstop
    have hsplit : (src.drop f).take (stop - f) ++ src.drop stop = src.drop f := by
      have h1 : src.drop stop = (src.drop f).drop (stop - f) := by
        rw [List.drop_drop]
        congr 1
        omega
      rw [h1]
      exact List.take_append_drop (stop - f) (src.drop f)
    by_cases hsn : stop = src.length
    · have hdrop : src.drop stop = [] := by
        rw [hsn]; simp
      have htake : (src.drop f).take (stop - f) = src.drop f := by
        apply List.take_of_length_le
        rw [List.length_drop]
        omega
      rw [hdrop, splitChunks_nil]
      unfold pieceText
      rw [htake]
      simp
    · have hslt : stop < src.length := by omega
      have hA_ne : pieceText src (f, stop) ≠ [] := by
        unfold pieceText
        intro hcon
        have := congrArg List.length hcon
        rw [List.length_take, List.length_drop] at this
        simp at this
        omega
      have hA_last : (pieceText src (f, stop)).getLast? = some d := by
        have hlen : (pieceText src (f, stop)).length = stop - f := by
          unfold pieceText
          rw [List.length_take, List.length_drop]
          omega
        rw [getLast?_eq_getD _ hA_ne, hlen]
        congr 1
        unfold pieceText
        rw [getD_take _ _ _ (by omega), getD_drop]
        have harith : f + (stop - f - 1) = stop - 1 := by omega
        rw [harith]
        exact dncStop_boundary src d W' w0 f i hf hslt
      rw [← splitChunks_append d (pieceText src (f, stop)) (src.drop stop) hA_ne hA_last]
      unfold pieceText
      rw [hsplit]

theorem foldl_enumFrom_last (l : List (List Byte)) (n a : Nat) :
    (List.enumFrom n l).foldl (fun _ kc => kc.1 + 1) a
      = if l = [] then a else n + l.length := by
  induction l generalizing n a with
  | nil => simp
  | cons c cs ih =>
    rw [List.enumFrom_cons, List.foldl_cons, ih]
    by_cases hcs : cs = []
    · subst hcs; simp
    · rw [if_neg hcs, if_neg (by simp)]
      simp only [List.length_cons]
      omega

theorem dncLast_eq_length (d : Byte) (piece : List Byte) :
    dncLast d piece = (splitChunks piece d).length := by
  unfold dncLast
  rw [show (splitChunks piece d).enum = List.enumFrom 0 (splitChunks piece d) from rfl]
  rw [foldl_enumFrom_last]
  by_cases h : splitChunks piece d = []
  · rw [if_pos h, h]; simp
  · rw [if_neg h]; omega

theorem dncGroup_shift (tok : List Byte → List (Nat × Nat)) (k off : Nat)
    (c : List Byte) :
    dncGroup tok (off + k) c = Option.map (fun g => (g.1 + off, g.2)) (dncGroup tok k c) := by
  unfold dncGroup
  by_cases hc : c = []
  · rw [if_pos hc, if_pos hc]; rfl
  · rw [if_neg hc, if_neg hc]
    by_cases ht : tok c = []
    · rw [if_pos ht, if_pos ht]; rfl
    · rw [if_neg ht, if_neg ht]
      simp [Option.map_some]
      omega

theorem filterMap_enumFrom_shift (tok : List Byte → List (Nat × Nat))
    (l : List (List Byte)) (off : Nat) :
    ∀ n, ((List.enumFrom n l).filterMap (fun kc => dncGroup tok kc.1 kc.2)).map
        (fun g => (g.1 + off, g.2))
      = (List.enumFrom (off + n) l).filterMap (fun kc => dncGroup tok kc.1 kc.2) := by
  induction l with
  | nil => intro n; simp
  | cons c cs ih =>
    intro n
    rw [List.enumFrom_cons, List.enumFrom_cons, List.filterMap_cons, List.filterMap_cons]
    cases hg : dncGroup tok n c with
    | none =>
      have : dncGroup tok (off + n) c = none := by
        rw [dncGroup_shift, hg]; rfl
      rw [this]
      rw [show off + n + 1 = off + (n + 1) from by omega]
      exact ih (n + 1)
    | some g =>
      have : dncGroup tok (off + n) c = some (g.1 + off, g.2) := by
        rw [dncGroup_shift, hg]; rfl
      rw [this, List.map_cons]
      rw [show off + n + 1 = off + (n + 1) from by omega]
      rw [ih (n + 1)]

theorem dncEmitGo_eq (tok : List Byte → List (Nat × Nat)) (d : Byte) :
    ∀ (ps : List (List Byte)) (off : Nat),
      dncEmitGo tok d ps off
        = (List.enumFrom off ((ps.map (fun p => splitChunks p d)).flatten)).filterMap
            (fun kc => dncGroup tok kc.1 kc.2) := by
  intro ps
  induction ps with
  | nil => intro off; simp [dncEmitGo]
  | cons p ps ih =>
    intro off
    rw [dncEmitGo]
    rw [List.map_cons, List.flatten_cons, List.enumFrom_append, List.filterMap_append]
    congr 1
    · unfold dncGroups
      rw [show (splitChunks p d).enum = List.enumFrom 0 (splitChunks p d) from rfl]
      rw [filterMap_enumFrom_shift]
      rw [Nat.add_zero]
    · rw [ih (off + dncLast d p), dncLast_eq_length]

/-- C1: the group sequence the Divide-and-Conquer strategy passes to the
findings sink equals the global reference enumeration: the emission loop
adds to worker `i+1`'s locally 1-based chunk indices the sum of the
`last_chunk_index` values of workers `0..i`, and the resulting line
numbers are exactly the global 1-based chunk indices of the chunks the
matches were found in.  This holds for every tokenizer, source, delimiter
and worker count (the entry point normalizes a zero worker count to 1,
covering every `W >= 1` literally). -/
theorem dnc_line_numbers_are_global (tok : List Byte → List (Nat × Nat))
    (src : List Byte) (d : Byte) (W : Nat) :
    dncEmit tok src d W = dncRef tok src d := by
  unfold dncEmit dncRef
  rw [dncEmitGo_eq]
  rw [List.map_map]
  have hjoin := dncBoundsGo_chunks src d (dncW W) (dncWidth src.length (dncW W) - 1)
    0 0 (by omega)
  unfold dncPieces
  rw [show ((fun p => splitChunks p d) ∘ pieceText src)
      = (fun ab => splitChunks (pieceText src ab) d) from rfl]
  rw [hjoin]
  rfl

/-! Section: Sink call traces -/

/-- One sink invocation: the findings-number sink or the findings sink. -/
inductive SinkEvent (α : Type) : Type
  | num : Nat → SinkEvent α
  | found : α → SinkEvent α
deriving DecidableEq

/-- The sink invocations of one `round_robin` run, in program order: first
`findings_number_sink` with the accumulated total, then one
`findings_sink` call per merged finding. -/
def rrTrace (tok : List Byte → List (Nat × Nat)) (s : List Byte) (d : Byte)
    (W : Nat) : List (SinkEvent Finding) :=
  SinkEvent.num (rrCount tok s d W) :: (rrFindings tok s d W).map SinkEvent.found

/-- The sink invocations of one `divide_and_conquer` run, in program
order: the total is printed first (the count sink), then each group goes
to the findings sink. -/
def dncTrace (tok : List Byte → List (Nat × Nat)) (src : List Byte) (d : Byte)
    (W : Nat) : List (SinkEvent Group) :=
  SinkEvent.num (dncCount tok src d W) :: (dncEmit tok src d W).map SinkEvent.found

theorem dncEmitGo_length (tok : List Byte → List (Nat × Nat)) (d : Byte)
    (ps : List (List Byte)) : ∀ off,
    (dncEmitGo tok d ps off).length = (ps.map (fun p => (dncGroups tok d p).length)).sum := by
  induction ps with
  | nil => intro off; simp [dncEmitGo]
  | cons p ps ih =>
    intro off
    rw [dncEmitGo]
    rw [List.length_append, List.length_map, ih (off + dncLast d p)]
    simp

theorem dncCount_eq_length (tok : List Byte → List (Nat × Nat)) (src : List Byte)
    (d : Byte) (W : Nat) : dncCount tok src d W = (dncEmit tok src d W).length := by
  unfold dncCount dncEmit
  rw [dncEmitGo_length, List.map_map]
  rfl

/-- C6: for either strategy, the count sink is invoked exactly once,
before the first findings-sink invocation, and the total it receives
equals the number of findings-sink invocations made afterwards: the
whole sink trace is the count event followed by exactly that many
finding events. -/
theorem count_sink_once_and_exact (tok : List Byte → List (Nat × Nat))
    (s : List Byte) (d : Byte) (W : Nat) :
    rrTrace tok s d W
      = SinkEvent.num ((rrFindings tok s d W).length)
          :: (rrFindings tok s d W).map SinkEvent.found ∧
    dncTrace tok s d W
      = SinkEvent.num ((dncEmit tok s d W).length)
          :: (dncEmit tok s d W).map SinkEvent.found := by
  constructor
  · unfold rrTrace
    rw [rrCount_eq_length]
  · unfold dncTrace
    rw [dncCount_eq_length]

end Mtfind
